import Mathlib

/-!
Verification of the sq-sdkms OpenPGP core against its specification.

The definitions below are shallow embeddings of the repository's code:

* `system_time_cutoff_to_timestamp`, `StandardPolicy`, `reject_hash_at` and
  `StandardPolicy.signature_check` embed `openpgp/src/policy.rs`.  The
  cutoff-list primitives (`cutoffCheck`, `setCutoff`) are modelled from the
  spec because `policy/cutofflist.rs` is not part of the sources.
* `PTree`, `pnext`, `precurse` model the recursive packet parser's
  depth bookkeeping from the spec (the parser itself lives outside the
  given sources; only its FFI wrappers `sq_packet_parser_next` /
  `sq_packet_parser_recurse` are given).
* `parseUsize` and `sqv_exit` embed the exit-code logic of
  `tool/src/sqv.rs` (`real_main`).
* `parseNewFormat`, `fillLoopF`, `PBF` and its operations embed
  `openpgp/src/parse/partial_body.rs`
  (`BufferedReaderPartialBodyFilter`).

Machine integers (`u32`, `usize`) are modelled as `Nat`; the only
subtraction sites in the source are guarded so `Nat` subtraction agrees
with the Rust semantics.  `SystemTime` is modelled as `Int` seconds
relative to the Unix epoch.
-/

/-! ## Policy engine (openpgp/src/policy.rs) -/

/-- Maximum value of `u32`, the range of an OpenPGP `Timestamp`. -/
def U32_MAX : Nat := 4294967295

/-- Embeds `system_time_cutoff_to_timestamp` (policy.rs).  A `SystemTime`
is modelled as `Int` seconds since the Unix epoch:
`duration_since(UNIX_EPOCH).unwrap_or(0)` maps negative times to `0`
(`Int.toNat` does exactly this), and values above `u32::MAX` map to
`None`. -/
def system_time_cutoff_to_timestamp (t : Int) : Option Nat :=
  let secs : Nat := t.toNat
  if secs > U32_MAX then none else some secs

/-- Modelled from the spec: `CutoffList::check` of `policy/cutofflist.rs`
(not under the given sources).  A `None` cutoff accepts at any reference
time; an explicit cutoff `c` rejects whenever the reference time is
`≥ c` ("reject if reference time ≥ cutoff").  `true` means accept. -/
def cutoffCheck (cutoff : Option Nat) (time : Nat) : Bool :=
  match cutoff with
  | none => true
  | some c => decide (time < c)

/-- Modelled from the spec: `CutoffList::set` of `policy/cutofflist.rs`
(not under the given sources): point-update of the per-algorithm cutoff
table.  Hash algorithms are identified by their numeric OpenPGP id. -/
def setCutoff (f : Nat → Option Nat) (h : Nat) (v : Option Nat) :
    Nat → Option Nat :=
  fun h2 => if h2 = h then v else f h2

/-- Modelled from the spec together with the uses in policy.rs:
the OpenPGP signature-type tag (`types::SignatureType` is not under the
given sources).  The exact variant inventory only matters through the
three revocation variants named in `StandardPolicy::signature`. -/
inductive SigType where
  | binary
  | text
  | standalone
  | genericCertification
  | personaCertification
  | casualCertification
  | positiveCertification
  | subkeyBinding
  | primaryKeyBinding
  | directKey
  | keyRevocation
  | subkeyRevocation
  | certificationRevocation
  | timestampSig
  | thirdPartyConfirmation
  | unknown (tag : Nat)
deriving DecidableEq

/-- The signature fields consulted by the standard policy: the type tag
and the hash-algorithm id. -/
structure Signature where
  typ : SigType
  hash_algo : Nat
deriving DecidableEq

/-- Embeds the `StandardPolicy` struct of policy.rs: an optional fixed
reference time and the two per-algorithm cutoff tables. -/
structure StandardPolicy where
  time : Option Nat
  hashAlgosNormal : Nat → Option Nat
  hashAlgosRevocation : Nat → Option Nat

/-- Embeds `StandardPolicy::reject_hash_at` (policy.rs): both requested
cutoffs pass through `system_time_cutoff_to_timestamp`
(`normal.into().and_then(system_time_cutoff_to_timestamp)`). -/
def reject_hash_at (p : StandardPolicy) (h : Nat)
    (normal revocation : Option Int) : StandardPolicy :=
  { p with
    hashAlgosNormal :=
      setCutoff p.hashAlgosNormal h
        (normal.bind system_time_cutoff_to_timestamp),
    hashAlgosRevocation :=
      setCutoff p.hashAlgosRevocation h
        (revocation.bind system_time_cutoff_to_timestamp) }

/-- Whether a signature type is one of the three revocation classes
dispatched to the revocation cutoff table in
`StandardPolicy::signature`. -/
def isRevocation : SigType → Bool
  | SigType.keyRevocation => true
  | SigType.subkeyRevocation => true
  | SigType.certificationRevocation => true
  | _ => false

/-- Embeds `impl Policy for StandardPolicy::signature` (policy.rs).  The
current wall-clock time (`Timestamp::now`) is an explicit parameter
`now`; it is consulted only when the policy has no fixed reference time.
`true` means the signature is accepted. -/
def StandardPolicy.signature_check (p : StandardPolicy) (sig : Signature)
    (now : Nat) : Bool :=
  let time := p.time.getD now
  match sig.typ with
  | SigType.keyRevocation =>
      cutoffCheck (p.hashAlgosRevocation sig.hash_algo) time
  | SigType.subkeyRevocation =>
      cutoffCheck (p.hashAlgosRevocation sig.hash_algo) time
  | SigType.certificationRevocation =>
      cutoffCheck (p.hashAlgosRevocation sig.hash_algo) time
  | _ => cutoffCheck (p.hashAlgosNormal sig.hash_algo) time

/-! ## Recursive packet parser depth bookkeeping -/

/-- Modelled from the spec: a packet is either a non-container or a
container holding a list of child packets (compressed/encrypted data).
Only the tree shape matters for recursion-depth bookkeeping. -/
inductive PTree where
  | leaf : PTree
  | node : List PTree → PTree

/-- Popping exhausted containers: discard empty pending-sibling lists
until a level with a further packet is reached ("can decrease by any
amount when containers are exhausted"). -/
def popEmpties : List (List PTree) → List (List PTree)
  | [] => []
  | [] :: rest => popEmpties rest
  | (p :: ps) :: rest => (p :: ps) :: rest

/-- Modelled from the spec: `advance_same_level` (`PacketParser::next`,
wrapped by `sq_packet_parser_next`).  The parser state is the stack of
pending-packet lists, innermost level first; the head of the first list
is the current packet.  `next` finishes the current packet and pops any
exhausted containers; it never descends. -/
def pnext : List (List PTree) → List (List PTree)
  | [] => []
  | [] :: rest => popEmpties rest
  | (_ :: siblings) :: rest => popEmpties (siblings :: rest)

/-- Modelled from the spec: `advance_and_descend`
(`PacketParser::recurse`, wrapped by `sq_packet_parser_recurse`): if the
current packet is a container with at least one child, descend to its
first child (depth + 1); otherwise behave exactly like `pnext`. -/
def precurse : List (List PTree) → List (List PTree)
  | (PTree.node (c :: cs) :: siblings) :: rest =>
      (c :: cs) :: siblings :: rest
  | st => pnext st

/-- Recursion depth of a parser state: a single open level is depth 0
(top-level packets), each enclosing container adds one.  The empty
stack (end of stream) is assigned -1 so depth statements can speak
about non-negativity. -/
def pdepth (st : List (List PTree)) : Int := (st.length : Int) - 1

/-! ## sqv exit-code logic (tool/src/sqv.rs) -/

/-- Embeds `str::parse::<usize>` as used for the `--signatures`
argument of sqv: all-digit strings parse to their value, everything
else fails.  (Overflow and a leading `+` sign are not modelled; the
claim only distinguishes numeric from non-numeric input.) -/
def parseUsize (cs : List Char) : Option Nat :=
  if cs = [] then none
  else if cs.all (fun c => decide ('0' ≤ c ∧ c ≤ '9')) then
    some (cs.foldl (fun acc c => acc * 10 + (c.toNat - 48)) 0)
  else none

/-- Embeds the exit-code decision of `real_main` (tool/src/sqv.rs):
a non-numeric `--signatures` argument exits 2, a threshold below 1
exits 2, and otherwise the run exits 0 exactly when the number of
cryptographically valid signatures `good` reaches the threshold
(`exit(if good >= good_threshold { 0 } else { 1 })`).  The signature
counting itself is cryptographic and is abstracted into `good`. -/
def sqv_exit (arg : Option (List Char)) (good : Nat) : Nat :=
  match arg with
  | none => if 1 ≤ good then 0 else 1
  | some s =>
    match parseUsize s with
    | none => 2
    | some t => if t < 1 then 2 else if t ≤ good then 0 else 1

/-! ## Chunked Body Reader (openpgp/src/parse/partial_body.rs) -/

/-- Embeds the `BodyLength` cases a new-format parse can yield
(`Full`, `Partial`, `Indeterminate`; the last is never produced by
`parse_new_format`, mirroring the source's `unreachable!`). -/
inductive BLen where
  | full : Nat → BLen
  | part : Nat → BLen
  | indet : BLen
deriving DecidableEq

/-- Modelled from the spec: `BodyLength::parse_new_format` (the parse
module's core is not under the given sources).  New-format length
encoding: first octet `< 192` is a one-octet full length; `192..=223`
starts a two-octet full length; `255` starts a five-octet full length;
`224..=254` is a partial (chunk) length of `1 << (octet & 0x1F)`.
Returns the parsed length and the number of octets consumed. -/
def parseNewFormat (r : List Nat) : Option (BLen × Nat) :=
  match r with
  | [] => none
  | o :: rest =>
    if o < 192 then some (BLen.full o, 1)
    else if o < 224 then
      match rest with
      | [] => none
      | o2 :: _ => some (BLen.full ((o - 192) * 256 + o2 + 192), 2)
    else if o = 255 then
      match rest with
      | a :: b :: cc :: d :: _ =>
          some (BLen.full (a * 16777216 + b * 65536 + cc * 256 + d), 5)
      | _ => none
    else some (BLen.part (2 ^ (o % 32)), 1)

/-- Ghost instrumentation of the underlying stream: bytes read as chunk
body, bytes read as chunk-length header, and the `Cookie::hashing`
enable/disable calls issued by `do_fill_buffer`. -/
inductive Event where
  | readBody : List Nat → Event
  | hashOff : Event
  | readHdr : List Nat → Event
  | hashOn : Event
deriving DecidableEq

/-- The events surrounding one header parse in `do_fill_buffer`: when
`hash_headers` is unset and the underlying cookie has a level, hashing
is disabled immediately before and re-enabled immediately after. -/
def hdrEvents (hh : Bool) (lvl : Option Nat) (es : List Event) :
    List Event :=
  if hh = false ∧ lvl.isSome then
    Event.hashOff :: es ++ [Event.hashOn]
  else es

/-- Result of the `do_fill_buffer` loop: the state of the underlying
reader (remaining bytes), the remaining partial-body length, the `last`
flag, the accumulated local buffer, an error flag, and the ghost event
trace. -/
structure FillOut where
  reader : List Nat
  pbl : Nat
  last : Bool
  acc : List Nat
  err : Bool
  trace : List Event
deriving DecidableEq

/-- Embeds the `loop` of
`BufferedReaderPartialBodyFilter::do_fill_buffer`.  The underlying
`BufferedReader` is modelled as the list of bytes it will deliver, so a
`read` of `to_read` bytes yields `min to_read r.length` bytes (a short
read signals EOF).  Each iteration consumes at least one byte of the
underlying reader before recursing, so `fuel = r.length + 1` (supplied
by the `fillLoop` wrapper) always suffices; the fuel-exhausted case is
unreachable. -/
def fillLoopF (hh : Bool) (lvl : Option Nat) :
    Nat → List Nat → Nat → Bool → List Nat → Nat → FillOut
  | 0, r, pbl, last, acc, _ => ⟨r, pbl, last, acc, true, []⟩
  | fuel + 1, r, pbl, last, acc, amount =>
    let toRead := min pbl (amount - acc.length)
    let didRead := min toRead r.length
    let taken := r.take didRead
    let rdEv : List Event :=
      if 0 < toRead then [Event.readBody taken] else []
    let r1 := r.drop didRead
    let pbl1 := pbl - didRead
    let acc1 := acc ++ taken
    if didRead < toRead then
      -- short read => EOF, break
      ⟨r1, pbl1, last, acc1, false, rdEv⟩
    else if acc1.length = amount ∨ last then
      -- read enough, or read everything
      ⟨r1, pbl1, last, acc1, false, rdEv⟩
    else
      -- read the next partial-body-length header
      match parseNewFormat r1 with
      | none => ⟨r1, pbl1, last, acc1, true, rdEv ++ hdrEvents hh lvl []⟩
      | some (BLen.full n, cnt) =>
        let out := fillLoopF hh lvl fuel (r1.drop cnt) n true acc1 amount
        ⟨out.reader, out.pbl, out.last, out.acc, out.err,
          rdEv ++ hdrEvents hh lvl [Event.readHdr (r1.take cnt)] ++
            out.trace⟩
      | some (BLen.part n, cnt) =>
        let out := fillLoopF hh lvl fuel (r1.drop cnt) n false acc1 amount
        ⟨out.reader, out.pbl, out.last, out.acc, out.err,
          rdEv ++ hdrEvents hh lvl [Event.readHdr (r1.take cnt)] ++
            out.trace⟩
      | some (BLen.indet, _) =>
        -- unreachable: parse_new_format never yields Indeterminate
        ⟨r1, pbl1, last, acc1, true, rdEv⟩

/-- The `do_fill_buffer` loop with sufficient fuel. -/
def fillLoop (hh : Bool) (lvl : Option Nat) (r : List Nat) (pbl : Nat)
    (last : Bool) (acc : List Nat) (amount : Nat) : FillOut :=
  fillLoopF hh lvl (r.length + 1) r pbl last acc amount

/-- Embeds the state of `BufferedReaderPartialBodyFilter`: the
underlying reader (as the bytes it will deliver, plus the cookie level
of its hashing machinery), the remaining bytes of the current chunk
(`partial_body_length`, here `pbl`), the `last` flag, the optional
local double-buffer with its cursor, and the `hash_headers` flag. -/
structure PBF where
  reader : List Nat
  level : Option Nat
  pbl : Nat
  last : Bool
  buffer : Option (List Nat)
  cursor : Nat
  hash_headers : Bool
deriving DecidableEq

/-- Embeds `do_fill_buffer`: copy the unread remnant of the local
buffer, run the fill loop, install the result as the new local buffer
with cursor 0, and report any error. -/
def do_fill_buffer (s : PBF) (amount : Nat) : PBF × Bool :=
  let out := fillLoop s.hash_headers s.level s.reader s.pbl s.last
    (match s.buffer with | some b => b.drop s.cursor | none => []) amount
  ({ s with
      reader := out.reader
      pbl := out.pbl
      last := out.last
      buffer := some out.acc
      cursor := 0 }, out.err)

/-- Embeds the no-double-buffer branch of `data_helper` (reading
directly from the underlying reader): `data_consume_hard` for
`hard && and_consume`, `data_consume` for `and_consume`, `data`
otherwise, followed by truncation to the current chunk and the
hard-read check. -/
def dataHelperInner (s : PBF) (amount : Nat) (hard c : Bool) :
    PBF × Option (List Nat) :=
  if hard ∧ c ∧ s.reader.length < amount then
    -- data_consume_hard on the underlying reader fails
    (s, none)
  else
    let buf := s.reader.take amount
    let s1 := if c then { s with reader := s.reader.drop amount } else s
    let ab := min buf.length s.pbl
    if hard ∧ ab < amount then (s1, none)
    else if c then
      ({ s1 with pbl := s.pbl - min amount ab }, some (buf.take ab))
    else (s1, some (buf.take ab))

/-- Embeds the common tail of `data_helper` (serving the request from
the local buffer after an optional refill). -/
def dataHelperTail (s : PBF) (amount : Nat) (hard c : Bool) :
    PBF × Option (List Nat) :=
  let buf := (s.buffer.getD []).drop s.cursor
  if hard ∧ buf.length < amount then (s, none)
  else if c then
    ({ s with cursor := s.cursor + min amount buf.length }, some buf)
  else (s, some buf)

/-- Embeds `BufferedReaderPartialBodyFilter::data_helper`. -/
def data_helper (s : PBF) (amount : Nat) (hard c : Bool) :
    PBF × Option (List Nat) :=
  match s.buffer with
  | some b =>
    if b.length - s.cursor < amount then
      match do_fill_buffer s amount with
      | (s1, true) => (s1, none)
      | (s1, false) => dataHelperTail s1 amount hard c
    else dataHelperTail s amount hard c
  | none =>
    if amount ≤ s.pbl ∨ s.last then dataHelperInner s amount hard c
    else
      match do_fill_buffer s amount with
      | (s1, true) => (s1, none)
      | (s1, false) => dataHelperTail s1 amount hard c

/-- Embeds the trait method `data` (soft read). -/
def PBF.data (s : PBF) (amount : Nat) : PBF × Option (List Nat) :=
  data_helper s amount false false

/-- Embeds the trait method `data_hard`. -/
def PBF.data_hard (s : PBF) (amount : Nat) : PBF × Option (List Nat) :=
  data_helper s amount true false

/-- Embeds the trait method `data_consume`. -/
def PBF.data_consume (s : PBF) (amount : Nat) :
    PBF × Option (List Nat) :=
  data_helper s amount false true

/-- Embeds the trait method `data_consume_hard`. -/
def PBF.data_consume_hard (s : PBF) (amount : Nat) :
    PBF × Option (List Nat) :=
  data_helper s amount true true

/-- Embeds the trait method `consume`.  `none` models an assertion
failure (panic): the source asserts `cursor ≤ buffer.len()` after
advancing the cursor, respectively `amount ≤ partial_body_length` when
passing through to the underlying reader. -/
def PBF.consume (s : PBF) (amount : Nat) : Option (PBF × List Nat) :=
  match s.buffer with
  | some b =>
    if s.cursor + amount ≤ b.length then
      some ({ s with cursor := s.cursor + amount }, b.drop s.cursor)
    else none
  | none =>
    if amount ≤ s.pbl then
      some ({ s with
              pbl := s.pbl - amount
              reader := s.reader.drop amount }, s.reader)
    else none

/-- Embeds the trait method `buffer`: the unread remnant of the local
buffer, or the underlying reader's buffered data truncated to the
current chunk. -/
def PBF.buffer_fn (s : PBF) : List Nat :=
  match s.buffer with
  | some b => b.drop s.cursor
  | none => s.reader.take (min s.reader.length s.pbl)

/-- Bytes of the logical body that are available without parsing a
further chunk-length header: the unread remnant of the local buffer,
or the remaining length of the current chunk. -/
def PBF.availLocal (s : PBF) : Nat :=
  match s.buffer with
  | some b => b.length - s.cursor
  | none => s.pbl

/-- Reading the stream one byte at a time: `n` repetitions of
`data_consume 1`, collecting the first returned byte of each call
(an empty return or an error ends the read). -/
def readBytes : PBF → Nat → List Nat
  | _, 0 => []
  | s, n + 1 =>
    match PBF.data_consume s 1 with
    | (s1, some bs) => bs.take 1 ++ readBytes s1 n
    | (_, none) => []

/-- Encoding of a partial-body-length header for chunk size `2 ^ k`
(`k ≤ 30`). -/
def encPartHdr (k : Nat) : List Nat := [224 + k]

/-- Encoding of a five-octet full-length header for `n < 2 ^ 32`. -/
def encFullHdr (n : Nat) : List Nat :=
  [255, n / 16777216 % 256, n / 65536 % 256, n / 256 % 256, n % 256]

/-- The bytes following the initial chunk of a valid chunked body:
each intermediate chunk `(k, b)` (with `b.length = 2 ^ k`) preceded by
its partial-length header, terminated by a full-length final chunk. -/
def encodeChunks : List (Nat × List Nat) → List Nat → List Nat
  | [], final => encFullHdr final.length ++ final
  | (k, b) :: ms, final => encPartHdr k ++ b ++ encodeChunks ms final

/-- The logical body contributed by the intermediate and final
chunks. -/
def chunkedBody : List (Nat × List Nat) → List Nat → List Nat
  | [], final => final
  | (_, b) :: ms, final => b ++ chunkedBody ms final

/-- Initial filter state over a freshly encoded chunked body: the
constructor receives the length of the initial chunk
(`partial_body_length`), no local buffer, `last = false`. -/
def initPBF (first : List Nat) (mids : List (Nat × List Nat))
    (final : List Nat) : PBF :=
  { reader := first ++ encodeChunks mids final
    level := none
    pbl := first.length
    last := false
    buffer := none
    cursor := 0
    hash_headers := true }

/-- Well-formedness of the not-yet-consumed part of a chunked body:
`Chunks r pbl last rest` states that the underlying bytes `r`, of which
`pbl` belong to the current chunk (final iff `last`), decode to the
remaining logical body `rest`. -/
inductive Chunks : List Nat → Nat → Bool → List Nat → Prop where
  | lastC (r : List Nat) (pbl : Nat) (h : pbl ≤ r.length) :
      Chunks r pbl true (r.take pbl)
  | stepF (r : List Nat) (pbl n cnt : Nat) (rest : List Nat)
      (h : pbl ≤ r.length)
      (hp : parseNewFormat (r.drop pbl) = some (BLen.full n, cnt))
      (next : Chunks (r.drop (pbl + cnt)) n true rest) :
      Chunks r pbl false (r.take pbl ++ rest)
  | stepP (r : List Nat) (pbl n cnt : Nat) (rest : List Nat)
      (h : pbl ≤ r.length)
      (hp : parseNewFormat (r.drop pbl) = some (BLen.part n, cnt))
      (next : Chunks (r.drop (pbl + cnt)) n false rest) :
      Chunks r pbl false (r.take pbl ++ rest)

/-- Invariant relating a filter state to the remaining logical body:
either no local buffer (cursor 0) and the underlying state decodes to
`rest`, or a local buffer whose unread remnant prepended to the decoded
underlying state gives `rest`. -/
def stInv (s : PBF) (rest : List Nat) : Prop :=
  (s.buffer = none ∧ s.cursor = 0 ∧ Chunks s.reader s.pbl s.last rest) ∨
  (∃ b d, s.buffer = some b ∧ s.cursor ≤ b.length ∧
    Chunks s.reader s.pbl s.last d ∧ b.drop s.cursor ++ d = rest)

/-- A truncated chunked body: the current chunk declares ten bytes but
only three are physically present. -/
def truncExample : PBF :=
  { reader := [1, 2, 3]
    level := none
    pbl := 10
    last := false
    buffer := none
    cursor := 0
    hash_headers := true }

/-- Bytes fed to the enclosing hash computation by an event trace:
reads are hashed while hashing is enabled; `hashOff`/`hashOn` toggle
the enable state. -/
def hashedOf : List Event → Bool → List Nat
  | [], _ => []
  | Event.readBody bs :: es, en => (if en then bs else []) ++ hashedOf es en
  | Event.readHdr bs :: es, en => (if en then bs else []) ++ hashedOf es en
  | Event.hashOff :: es, _ => hashedOf es false
  | Event.hashOn :: es, _ => hashedOf es true

/-- Chunk-body bytes read by an event trace. -/
def bodyBytesOf : List Event → List Nat
  | [] => []
  | Event.readBody bs :: es => bs ++ bodyBytesOf es
  | _ :: es => bodyBytesOf es

/-- All bytes (body and header) read by an event trace. -/
def allBytesOf : List Event → List Nat
  | [] => []
  | Event.readBody bs :: es => bs ++ allBytesOf es
  | Event.readHdr bs :: es => bs ++ allBytesOf es
  | _ :: es => allBytesOf es

/-! ## Theorems -/

theorem popEmpties_length_le (st : List (List PTree)) :
    (popEmpties st).length ≤ st.length := by
  induction st with
  | nil => simp [popEmpties]
  | cons l rest ih =>
    cases l with
    | nil => exact le_trans ih (by simp [popEmpties])
    | cons p ps => simp [popEmpties]

/-- C3: `advance_same_level` never increases the recursion depth,
`advance_and_descend` increases it by at most one, and the depth of any
live (non-end-of-stream) parser position is non-negative. -/
theorem parser_depth_steps (st : List (List PTree)) :
    pdepth (pnext st) ≤ pdepth st ∧
    pdepth (precurse st) ≤ pdepth st + 1 ∧
    (pnext st ≠ [] → 0 ≤ pdepth (pnext st)) ∧
    (precurse st ≠ [] → 0 ≤ pdepth (precurse st)) := by
  have hnext : (pnext st).length ≤ st.length := by
    match st with
    | [] => simp [pnext]
    | [] :: rest =>
      simpa [pnext] using
        le_trans (popEmpties_length_le rest) (Nat.le_succ _)
    | (p :: siblings) :: rest =>
      simpa [pnext] using popEmpties_length_le (siblings :: rest)
  have hrec : (precurse st).length ≤ st.length + 1 := by
    match st with
    | [] => simp [precurse, pnext]
    | [] :: rest =>
      have : (pnext ([] :: rest)).length ≤ ([] :: rest).length := hnext
      simpa [precurse] using le_trans this (Nat.le_succ _)
    | (PTree.leaf :: siblings) :: rest =>
      have : (pnext ((PTree.leaf :: siblings) :: rest)).length ≤
          ((PTree.leaf :: siblings) :: rest).length := hnext
      simpa [precurse] using le_trans this (Nat.le_succ _)
    | (PTree.node [] :: siblings) :: rest =>
      have : (pnext ((PTree.node [] :: siblings) :: rest)).length ≤
          ((PTree.node [] :: siblings) :: rest).length := hnext
      simpa [precurse] using le_trans this (Nat.le_succ _)
    | (PTree.node (c :: cs) :: siblings) :: rest =>
      simp [precurse]
  refine ⟨?_, ?_, ?_, ?_⟩
  · simp only [pdepth]
    have : ((pnext st).length : Int) ≤ (st.length : Int) :=
      Int.ofNat_le.mpr hnext
    omega
  · simp only [pdepth]
    have : ((precurse st).length : Int) ≤ (st.length : Int) + 1 := by
      have := Int.ofNat_le.mpr hrec
      push_cast at this ⊢
      omega
    omega
  · intro h
    have : 0 < (pnext st).length := List.length_pos.mpr h
    simp only [pdepth]
    omega
  · intro h
    have : 0 < (precurse st).length := List.length_pos.mpr h
    simp only [pdepth]
    omega

/-- Witness for C3 at a concrete two-packet state. -/
theorem parser_depth_steps_witness :
    (pnext [[PTree.leaf, PTree.leaf]] ≠ [] →
      0 ≤ pdepth (pnext [[PTree.leaf, PTree.leaf]])) ∧
    (precurse [[PTree.leaf, PTree.leaf]] ≠ [] →
      0 ≤ pdepth (precurse [[PTree.leaf, PTree.leaf]])) ∧
    pdepth (pnext [[PTree.leaf, PTree.leaf]]) ≤
      pdepth [[PTree.leaf, PTree.leaf]] :=
  ⟨(parser_depth_steps [[PTree.leaf, PTree.leaf]]).2.2.1,
   (parser_depth_steps [[PTree.leaf, PTree.leaf]]).2.2.2,
   (parser_depth_steps [[PTree.leaf, PTree.leaf]]).1⟩

/-- C2: cutoff-request clamping and cutoff semantics.  A requested
cutoff before the epoch is stored as the epoch (`some 0`), which rejects
at every reference time; a requested cutoff beyond `u32::MAX` seconds is
stored as `none`, which accepts at every reference time; a stored
`none` always accepts, and acceptance at reference time `ref` against a
stored cutoff `c` is exactly `ref < c`. -/
theorem cutoff_clamping (p : StandardPolicy) (h : Nat) (t : Int)
    (ref c : Nat) :
    (t < 0 →
      (reject_hash_at p h (some t) (some t)).hashAlgosNormal h = some 0 ∧
      (reject_hash_at p h (some t) (some t)).hashAlgosRevocation h
        = some 0 ∧
      cutoffCheck (some 0) ref = false) ∧
    ((U32_MAX : Int) < t →
      (reject_hash_at p h (some t) (some t)).hashAlgosNormal h = none ∧
      (reject_hash_at p h (some t) (some t)).hashAlgosRevocation h
        = none ∧
      cutoffCheck none ref = true) ∧
    cutoffCheck none ref = true ∧
    (cutoffCheck (some c) ref = true ↔ ref < c) := by
  constructor
  · intro ht
    have hsecs : t.toNat = 0 := by omega
    have hval : system_time_cutoff_to_timestamp t = some 0 := by
      simp only [system_time_cutoff_to_timestamp, hsecs]
      norm_num [U32_MAX]
    refine ⟨?_, ?_, by simp [cutoffCheck]⟩
    · simp [reject_hash_at, setCutoff, hval]
    · simp [reject_hash_at, setCutoff, hval]
  constructor
  · intro ht
    have hsecs : t.toNat > U32_MAX := by
      have h0 : (0 : Int) ≤ t := by
        have : (0 : Int) ≤ (U32_MAX : Int) := by positivity
        omega
      omega
    have hval : system_time_cutoff_to_timestamp t = none := by
      simp only [system_time_cutoff_to_timestamp]
      simp [hsecs]
    refine ⟨?_, ?_, by simp [cutoffCheck]⟩
    · simp [reject_hash_at, setCutoff, hval]
    · simp [reject_hash_at, setCutoff, hval]
  constructor
  · simp [cutoffCheck]
  · simp [cutoffCheck]

/-- Witness for C2: a pre-epoch request is stored as the epoch and
rejects, and a beyond-the-ceiling request is stored as `none` and
accepts. -/
theorem cutoff_clamping_witness :
    ((-5 : Int) < 0 ∧
      (reject_hash_at ⟨none, fun _ => none, fun _ => none⟩ 2
        (some (-5)) (some (-5))).hashAlgosNormal 2 = some 0 ∧
      (reject_hash_at ⟨none, fun _ => none, fun _ => none⟩ 2
        (some (-5)) (some (-5))).hashAlgosRevocation 2 = some 0 ∧
      cutoffCheck (some 0) 7 = false) ∧
    ((U32_MAX : Int) < 4294967296 ∧
      (reject_hash_at ⟨none, fun _ => none, fun _ => none⟩ 2
        (some 4294967296) (some 4294967296)).hashAlgosNormal 2 = none ∧
      (reject_hash_at ⟨none, fun _ => none, fun _ => none⟩ 2
        (some 4294967296) (some 4294967296)).hashAlgosRevocation 2
        = none ∧
      cutoffCheck none 7 = true) :=
  ⟨⟨by decide,
    (cutoff_clamping ⟨none, fun _ => none, fun _ => none⟩ 2 (-5) 7 3).1
      (by decide)⟩,
   ⟨by norm_num [U32_MAX],
    (cutoff_clamping ⟨none, fun _ => none, fun _ => none⟩ 2 4294967296
        7 3).2.1
      (by norm_num [U32_MAX])⟩⟩

/-- C5: the signature-class dispatch of `StandardPolicy::signature` is
exact: the three revocation signature types are checked against the
revocation table, every other type against the normal table; and the
decision is a pure function of the hash algorithm, the revocation
class, the cutoff tables and the reference time. -/
theorem signature_dispatch (p : StandardPolicy) (sig : Signature)
    (now : Nat) :
    StandardPolicy.signature_check p sig now =
      cutoffCheck
        ((if isRevocation sig.typ then p.hashAlgosRevocation
          else p.hashAlgosNormal) sig.hash_algo)
        (p.time.getD now) ∧
    (isRevocation sig.typ = true ↔
      (sig.typ = SigType.keyRevocation ∨
       sig.typ = SigType.subkeyRevocation ∨
       sig.typ = SigType.certificationRevocation)) ∧
    (∀ s2 : Signature, sig.hash_algo = s2.hash_algo →
      isRevocation sig.typ = isRevocation s2.typ →
      StandardPolicy.signature_check p sig now =
        StandardPolicy.signature_check p s2 now) := by
  have key : ∀ s : Signature,
      StandardPolicy.signature_check p s now =
        cutoffCheck
          ((if isRevocation s.typ then p.hashAlgosRevocation
            else p.hashAlgosNormal) s.hash_algo)
          (p.time.getD now) := by
    intro s
    cases h : s.typ <;>
      simp [StandardPolicy.signature_check, isRevocation, h]
  refine ⟨key sig, ?_, ?_⟩
  · cases h : sig.typ <;> simp [isRevocation]
  · intro s2 halgo hclass
    rw [key sig, key s2, halgo, hclass]

/-- Witness for C5: a subkey-revocation and a key-revocation with the
same hash algorithm get the same decision, through the revocation
table. -/
theorem signature_dispatch_witness :
    (⟨SigType.subkeyRevocation, 2⟩ : Signature).hash_algo =
      (⟨SigType.keyRevocation, 2⟩ : Signature).hash_algo ∧
    isRevocation (⟨SigType.subkeyRevocation, 2⟩ : Signature).typ =
      isRevocation (⟨SigType.keyRevocation, 2⟩ : Signature).typ ∧
    StandardPolicy.signature_check ⟨some 10, fun _ => some 9, fun _ => some 11⟩
        ⟨SigType.subkeyRevocation, 2⟩ 0 =
      StandardPolicy.signature_check ⟨some 10, fun _ => some 9, fun _ => some 11⟩
        ⟨SigType.keyRevocation, 2⟩ 0 :=
  ⟨rfl, rfl,
   (signature_dispatch ⟨some 10, fun _ => some 9, fun _ => some 11⟩
      ⟨SigType.subkeyRevocation, 2⟩ 0).2.2
     ⟨SigType.keyRevocation, 2⟩ rfl rfl⟩

/-- C7: with a fixed reference time the policy decision is independent
of the wall clock, hence evaluating the same signature twice always
yields the same accept/reject decision (the embedding is a pure
function of the policy value, which evaluation does not modify). -/
theorem policy_deterministic (p : StandardPolicy) (sig : Signature)
    (t now1 now2 : Nat) (hfix : p.time = some t) :
    StandardPolicy.signature_check p sig now1 =
      StandardPolicy.signature_check p sig now2 := by
  cases h : sig.typ <;>
    simp [StandardPolicy.signature_check, hfix, h]

/-- Witness for C7 at a concrete policy with fixed reference time. -/
theorem policy_deterministic_witness :
    (⟨some 10, fun _ => some 9, fun _ => some 11⟩ : StandardPolicy).time
      = some 10 ∧
    StandardPolicy.signature_check
        ⟨some 10, fun _ => some 9, fun _ => some 11⟩
        ⟨SigType.binary, 2⟩ 0 =
      StandardPolicy.signature_check
        ⟨some 10, fun _ => some 9, fun _ => some 11⟩
        ⟨SigType.binary, 2⟩ 999 :=
  ⟨rfl,
   policy_deterministic ⟨some 10, fun _ => some 9, fun _ => some 11⟩
     ⟨SigType.binary, 2⟩ 10 0 999 rfl⟩

/-- C9: sqv exits 0 exactly when the number of valid signatures reaches
the threshold (default 1); a threshold of 0 and a non-numeric threshold
are rejected with exit code 2. -/
theorem sqv_exit_code (good : Nat) (arg : Option (List Char)) :
    (∀ s t, arg = some s → parseUsize s = some t → 1 ≤ t →
      (sqv_exit arg good = 0 ↔ t ≤ good)) ∧
    (arg = none → (sqv_exit arg good = 0 ↔ 1 ≤ good)) ∧
    (∀ s, arg = some s → parseUsize s = none → sqv_exit arg good = 2) ∧
    (∀ s, arg = some s → parseUsize s = some 0 →
      sqv_exit arg good = 2) := by
  refine ⟨?_, ?_, ?_, ?_⟩
  · intro s t hs hp ht
    subst hs
    have hlt : ¬ t < 1 := by omega
    simp only [sqv_exit, hp, if_neg hlt]
    by_cases hg : t ≤ good
    · simp [hg]
    · simp [hg]
  · intro h
    subst h
    simp only [sqv_exit]
    by_cases hg : 1 ≤ good
    · simp [hg]
    · simp [hg]
  · intro s hs hp
    subst hs
    simp [sqv_exit, hp]
  · intro s hs hp
    subst hs
    simp [sqv_exit, hp]
/-- Witness for C9: with threshold argument "2", exit is 0 iff at least
two signatures are valid; "x" and "0" exit 2. -/
theorem sqv_exit_code_witness :
    (parseUsize ['2'] = some 2 ∧ 1 ≤ 2 ∧
      (sqv_exit (some ['2']) 3 = 0 ↔ 2 ≤ 3)) ∧
    (parseUsize ['x'] = none ∧ sqv_exit (some ['x']) 3 = 2) ∧
    (parseUsize ['0'] = some 0 ∧ sqv_exit (some ['0']) 3 = 2) :=
  ⟨⟨by decide, by decide,
    (sqv_exit_code 3 (some ['2'])).1 ['2'] 2 rfl (by decide) (by decide)⟩,
   ⟨by decide, (sqv_exit_code 3 (some ['x'])).2.2.1 ['x'] rfl (by decide)⟩,
   ⟨by decide, (sqv_exit_code 3 (some ['0'])).2.2.2 ['0'] rfl (by decide)⟩⟩


theorem dataHelperTail_hard_soft (s : PBF) (n : Nat) (c : Bool) :
    (dataHelperTail s n true c).2 =
      (match (dataHelperTail s n false c).2 with
       | some bs => if bs.length < n then none else some bs
       | none => none) := by
  unfold dataHelperTail
  cases c <;> simp <;> split <;> simp_all

theorem dataHelperInner_hard_soft (s : PBF) (n : Nat) (c : Bool) :
    (dataHelperInner s n true c).2 =
      (match (dataHelperInner s n false c).2 with
       | some bs => if bs.length < n then none else some bs
       | none => none) := by
  unfold dataHelperInner
  cases c <;> simp <;> split <;> (try split) <;> simp_all

/-- C4: the hard read variants fail with `UnexpectedEndOfData` exactly
where the soft variants on the same state deliver fewer than the
requested bytes (the refill logic is shared, so the two variants agree
whenever enough data is available); concretely, on a truncated chunk
(ten declared, three physical bytes) `data_hard` errors while `data`
returns the three available bytes. -/
theorem hard_soft_reads (s : PBF) (n : Nat) (c : Bool) :
    (data_helper s n true c).2 =
      (match (data_helper s n false c).2 with
       | some bs => if bs.length < n then none else some bs
       | none => none) ∧
    (PBF.data_hard truncExample 5).2 = none ∧
    (PBF.data truncExample 5).2 = some [1, 2, 3] := by
  refine ⟨?_, by decide, by decide⟩
  unfold data_helper
  cases hb : s.buffer with
  | none =>
    simp only
    split
    · exact dataHelperInner_hard_soft s n c
    · rcases hdo : do_fill_buffer s n with ⟨s1, err⟩
      cases err
      · exact dataHelperTail_hard_soft s1 n c
      · simp
  | some b =>
    simp only
    split
    · rcases hdo : do_fill_buffer s n with ⟨s1, err⟩
      cases err
      · exact dataHelperTail_hard_soft s1 n c
      · simp
    · exact dataHelperTail_hard_soft s n c

/-- C8: a `consume(n)` whose argument stays within the locally buffered
remnant (when a local buffer exists), respectively within the current
chunk (when none exists), succeeds without tripping the internal
assertions and advances the logical position by exactly `n` bytes. -/
theorem consume_within_bounds (s : PBF) (n : Nat)
    (h : match s.buffer with
         | some b => s.cursor + n ≤ b.length
         | none => n ≤ s.pbl) :
    ∃ s1 out, PBF.consume s n = some (s1, out) ∧
      s1.availLocal + n = s.availLocal ∧
      (s.buffer = none → s1.reader = s.reader.drop n ∧
        s1.pbl + n = s.pbl) ∧
      (∀ b, s.buffer = some b → s1.cursor = s.cursor + n ∧
        s1.cursor ≤ b.length) := by
  cases hb : s.buffer with
  | some b =>
    rw [hb] at h
    replace h : s.cursor + n ≤ b.length := h
    refine ⟨{ s with cursor := s.cursor + n }, b.drop s.cursor,
      ?_, ?_, ?_, ?_⟩
    · simp [PBF.consume, hb, h]
    · simp [PBF.availLocal, hb]
      omega
    · intro hn
      cases hn
    · intro b2 hb2
      injection hb2 with hb2
      subst hb2
      exact ⟨rfl, h⟩
  | none =>
    rw [hb] at h
    replace h : n ≤ s.pbl := h
    refine ⟨{ s with pbl := s.pbl - n, reader := s.reader.drop n },
      s.reader, ?_, ?_, ?_, ?_⟩
    · simp [PBF.consume, hb, h]
    · simp [PBF.availLocal, hb]
      omega
    · intro _
      refine ⟨rfl, ?_⟩
      simp
      omega
    · intro b2 hb2
      cases hb2

/-- Witness for C8 on a buffered state and on a pass-through state. -/
theorem consume_within_bounds_witness :
    (∃ s1 out,
      PBF.consume ⟨[9], none, 0, true, some [1, 2, 3], 1, true⟩ 2 =
        some (s1, out) ∧
      s1.availLocal + 2 =
        (⟨[9], none, 0, true, some [1, 2, 3], 1, true⟩ : PBF).availLocal ∧
      ((⟨[9], none, 0, true, some [1, 2, 3], 1, true⟩ : PBF).buffer = none →
        s1.reader = [9].drop 2 ∧ s1.pbl + 2 = 0) ∧
      (∀ b, (⟨[9], none, 0, true, some [1, 2, 3], 1, true⟩ : PBF).buffer
          = some b →
        s1.cursor = 1 + 2 ∧ s1.cursor ≤ b.length)) :=
  consume_within_bounds ⟨[9], none, 0, true, some [1, 2, 3], 1, true⟩ 2
    (by decide)

theorem dataHelperInner_soft_len (s : PBF) (n : Nat) (c : Bool)
    (s1 : PBF) (bs : List Nat)
    (hd : dataHelperInner s n false c = (s1, some bs)) :
    bs.length ≤ s.pbl := by
  unfold dataHelperInner at hd
  simp only at hd
  rcases c <;> simp at hd <;>
    rcases hd with ⟨h1, h2⟩ <;>
    simp [← h2, List.length_take]

/-- C10: with no local double-buffer, a soft read that stays in the
no-refill path (request within the current chunk, or final chunk)
exposes at most `partial_body_length` bytes, and the `buffer()` view
truncates the underlying reader's data to the current chunk. -/
theorem no_buffer_chunk_bound (s : PBF) (n : Nat)
    (hb : s.buffer = none) :
    ((n ≤ s.pbl ∨ s.last = true) →
      ∀ s1 bs, PBF.data s n = (s1, some bs) → bs.length ≤ s.pbl) ∧
    (PBF.buffer_fn s).length ≤ s.pbl := by
  constructor
  · intro hc s1 bs hd
    unfold PBF.data data_helper at hd
    rw [hb] at hd
    have hcond : n ≤ s.pbl ∨ (s.last : Prop) := by
      rcases hc with h | h
      · exact Or.inl h
      · exact Or.inr h
    rw [if_pos hcond] at hd
    exact dataHelperInner_soft_len s n false s1 bs hd
  · simp [PBF.buffer_fn, hb, List.length_take]

/-- Witness for C10 on the truncated-chunk example. -/
theorem no_buffer_chunk_bound_witness :
    ((5 ≤ truncExample.pbl ∨ truncExample.last = true) ∧
      [1, 2, 3].length ≤ truncExample.pbl) ∧
    (PBF.buffer_fn truncExample).length ≤ truncExample.pbl :=
  ⟨⟨Or.inl (by decide),
    (no_buffer_chunk_bound truncExample 5 rfl).1 (Or.inl (by decide))
      truncExample [1, 2, 3] (by decide)⟩,
   (no_buffer_chunk_bound truncExample 5 rfl).2⟩

theorem fillLoopF_hashed_false (l : Nat) :
    ∀ (fuel : Nat) (r : List Nat) (pbl : Nat) (last : Bool)
      (acc : List Nat) (amount : Nat),
      hashedOf
          (fillLoopF false (some l) fuel r pbl last acc amount).trace
          true =
        bodyBytesOf
          (fillLoopF false (some l) fuel r pbl last acc amount).trace := by
  intro fuel
  induction fuel with
  | zero => intros; simp [fillLoopF, hashedOf, bodyBytesOf]
  | succ fuel ih =>
    intro r pbl last acc amount
    simp only [fillLoopF]
    by_cases h0 : 0 < min pbl (amount - acc.length)
    · split
      · simp [h0, hashedOf, bodyBytesOf]
      · split
        · simp [h0, hashedOf, bodyBytesOf]
        · split <;>
            simp [h0, hdrEvents, hashedOf, bodyBytesOf, ih]
    · split
      · simp [h0, hashedOf, bodyBytesOf]
      · split
        · simp [h0, hashedOf, bodyBytesOf]
        · split <;>
            simp [h0, hdrEvents, hashedOf, bodyBytesOf, ih]

theorem fillLoopF_hashed_true (lvl : Option Nat) :
    ∀ (fuel : Nat) (r : List Nat) (pbl : Nat) (last : Bool)
      (acc : List Nat) (amount : Nat),
      hashedOf
          (fillLoopF true lvl fuel r pbl last acc amount).trace true =
        allBytesOf
          (fillLoopF true lvl fuel r pbl last acc amount).trace := by
  intro fuel
  induction fuel with
  | zero => intros; simp [fillLoopF, hashedOf, allBytesOf]
  | succ fuel ih =>
    intro r pbl last acc amount
    simp only [fillLoopF]
    by_cases h0 : 0 < min pbl (amount - acc.length)
    · split
      · simp [h0, hashedOf, allBytesOf]
      · split
        · simp [h0, hashedOf, allBytesOf]
        · split <;>
            simp [h0, hdrEvents, hashedOf, allBytesOf, ih]
    · split
      · simp [h0, hashedOf, allBytesOf]
      · split
        · simp [h0, hashedOf, allBytesOf]
        · split <;>
            simp [h0, hdrEvents, hashedOf, allBytesOf, ih]

/-- C6: when `hash_headers` is unset and the underlying cookie carries a
hashing level, the refill loop suspends hashing around every
chunk-length-header read, so exactly the logical body bytes — never the
header bytes — reach the enclosing hash; with `hash_headers` set, the
header bytes are hashed along with the body. -/
theorem header_hash_suspension (lvl : Option Nat) (l : Nat)
    (r : List Nat) (pbl : Nat) (last : Bool) (acc : List Nat)
    (amount : Nat) :
    (lvl = some l →
      hashedOf (fillLoop false lvl r pbl last acc amount).trace true =
        bodyBytesOf (fillLoop false lvl r pbl last acc amount).trace) ∧
    hashedOf (fillLoop true lvl r pbl last acc amount).trace true =
      allBytesOf (fillLoop true lvl r pbl last acc amount).trace := by
  constructor
  · intro hl
    subst hl
    exact fillLoopF_hashed_false l (r.length + 1) r pbl last acc amount
  · exact fillLoopF_hashed_true lvl (r.length + 1) r pbl last acc amount

/-- Witness for C6 on a run that crosses one chunk boundary: the body
bytes 5 and 9 are hashed, the header byte 1 is not. -/
theorem header_hash_suspension_witness :
    (some 0 = some 0 ∧
      hashedOf (fillLoop false (some 0) [5, 1, 9] 1 false [] 2).trace
          true =
        bodyBytesOf
          (fillLoop false (some 0) [5, 1, 9] 1 false [] 2).trace) ∧
    (fillLoop false (some 0) [5, 1, 9] 1 false [] 2).trace =
      [Event.readBody [5], Event.hashOff, Event.readHdr [1],
       Event.hashOn, Event.readBody [9]] ∧
    hashedOf (fillLoop false (some 0) [5, 1, 9] 1 false [] 2).trace
        true = [5, 9] :=
  ⟨⟨rfl,
    (header_hash_suspension (some 0) 0 [5, 1, 9] 1 false [] 2).1 rfl⟩,
   by decide, by decide⟩

theorem parse_some_facts {r : List Nat} {bl : BLen} {cnt : Nat}
    (h : parseNewFormat r = some (bl, cnt)) :
    0 < cnt ∧ 0 < r.length := by
  cases r with
  | nil => simp [parseNewFormat] at h
  | cons o rest =>
    refine ⟨?_, by simp⟩
    simp only [parseNewFormat] at h
    split_ifs at h with h1 h2 h3
    · simp only [Option.some.injEq, Prod.mk.injEq] at h
      omega
    · cases rest with
      | nil => simp at h
      | cons a t =>
        simp only [Option.some.injEq, Prod.mk.injEq] at h
        omega
    · rcases rest with _ | ⟨a, _ | ⟨b, _ | ⟨c2, _ | ⟨d, t⟩⟩⟩⟩ <;>
        first
        | (simp only [Option.some.injEq, Prod.mk.injEq] at h; omega)
        | simp at h
    · simp only [Option.some.injEq, Prod.mk.injEq] at h
      omega

theorem chunks_pbl_le {r : List Nat} {pbl : Nat} {last : Bool}
    {rest : List Nat} (h : Chunks r pbl last rest) : pbl ≤ r.length := by
  cases h <;> assumption

theorem chunks_rest_shape {r : List Nat} {pbl : Nat} {last : Bool}
    {rest : List Nat} (h : Chunks r pbl last rest) :
    ∃ rest2, rest = r.take pbl ++ rest2 ∧ (last = true → rest2 = []) := by
  cases h with
  | lastC r pbl hle => exact ⟨[], by simp, fun _ => rfl⟩
  | stepF r pbl n cnt rest hle hp sub =>
    exact ⟨rest, rfl, by simp⟩
  | stepP r pbl n cnt rest hle hp sub =>
    exact ⟨rest, rfl, by simp⟩

theorem chunks_drop {r : List Nat} {pbl : Nat} {last : Bool}
    {rest : List Nat} (h : Chunks r pbl last rest) (k : Nat)
    (hk : k ≤ pbl) :
    Chunks (r.drop k) (pbl - k) last (rest.drop k) := by
  cases h with
  | lastC r pbl hle =>
    rw [List.drop_take]
    exact Chunks.lastC _ _ (by simp only [List.length_drop]; omega)
  | stepF r pbl n cnt rest hle hp sub =>
    have hlen : (r.take pbl).length = pbl := by
      simp only [List.length_take]
      omega
    rw [List.drop_append_of_le_length (by rw [hlen]; exact hk),
      List.drop_take]
    refine Chunks.stepF _ _ n cnt rest
      (by simp only [List.length_drop]; omega) ?_ ?_
    · rw [List.drop_drop, show k + (pbl - k) = pbl from by omega]
      exact hp
    · rw [List.drop_drop, show k + (pbl - k + cnt) = pbl + cnt from by
        omega]
      exact sub
  | stepP r pbl n cnt rest hle hp sub =>
    have hlen : (r.take pbl).length = pbl := by
      simp only [List.length_take]
      omega
    rw [List.drop_append_of_le_length (by rw [hlen]; exact hk),
      List.drop_take]
    refine Chunks.stepP _ _ n cnt rest
      (by simp only [List.length_drop]; omega) ?_ ?_
    · rw [List.drop_drop, show k + (pbl - k) = pbl from by omega]
      exact hp
    · rw [List.drop_drop, show k + (pbl - k + cnt) = pbl + cnt from by
        omega]
      exact sub

theorem fillLoopF_ok (hh : Bool) (lvl : Option Nat) :
    ∀ {r : List Nat} {pbl : Nat} {last : Bool} {rest : List Nat},
      Chunks r pbl last rest →
      ∀ (fuel : Nat) (acc : List Nat) (amount : Nat),
        acc.length ≤ amount → r.length < fuel →
        (fillLoopF hh lvl fuel r pbl last acc amount).err = false ∧
        (fillLoopF hh lvl fuel r pbl last acc amount).acc =
          acc ++ rest.take (amount - acc.length) ∧
        Chunks (fillLoopF hh lvl fuel r pbl last acc amount).reader
          (fillLoopF hh lvl fuel r pbl last acc amount).pbl
          (fillLoopF hh lvl fuel r pbl last acc amount).last
          (rest.drop (amount - acc.length)) := by
  intro r pbl last rest hch
  induction hch with
  | lastC r pbl hle =>
    intro fuel acc amount hacc hfuel
    obtain ⟨f, rfl⟩ : ∃ f, fuel = f + 1 := ⟨fuel - 1, by omega⟩
    simp only [fillLoopF]
    have h1 : min (min pbl (amount - acc.length)) r.length =
        min pbl (amount - acc.length) := by omega
    rw [h1, if_neg (lt_irrefl _), if_pos (Or.inr trivial)]
    refine ⟨rfl, ?_, ?_⟩
    · show acc ++ r.take (min pbl (amount - acc.length)) =
        acc ++ (r.take pbl).take (amount - acc.length)
      rw [List.take_take, Nat.min_comm pbl (amount - acc.length)]
    · show Chunks (r.drop (min pbl (amount - acc.length)))
        (pbl - min pbl (amount - acc.length)) true
        ((r.take pbl).drop (amount - acc.length))
      have hd := chunks_drop (Chunks.lastC r pbl hle)
        (min pbl (amount - acc.length)) (Nat.min_le_left _ _)
      rcases Nat.le_total (amount - acc.length) pbl with hsp | hsp
      · rw [Nat.min_eq_right hsp] at hd ⊢
        exact hd
      · rw [Nat.min_eq_left hsp] at hd ⊢
        have heq : (r.take pbl).drop (amount - acc.length) =
            (r.take pbl).drop pbl := by
          rw [List.drop_eq_nil_iff.mpr
              (by simp only [List.length_take]; omega),
            List.drop_eq_nil_iff.mpr
              (by simp only [List.length_take]; omega)]
        rw [heq]
        exact hd
  | stepF r pbl n cnt rest hle hp sub ih =>
    intro fuel acc amount hacc hfuel
    obtain ⟨f, rfl⟩ : ∃ f, fuel = f + 1 := ⟨fuel - 1, by omega⟩
    have hpf := parse_some_facts hp
    have hrlen : pbl < r.length := by
      have h2 := hpf.2
      simp only [List.length_drop] at h2
      omega
    simp only [fillLoopF]
    rcases Nat.lt_or_ge pbl (amount - acc.length) with hsp | hsp
    · -- the request crosses the chunk boundary: read the whole chunk,
      -- parse the next header, recurse
      have h1 : min pbl (amount - acc.length) = pbl :=
        Nat.min_eq_left (by omega)
      rw [h1]
      have h2 : min pbl r.length = pbl := Nat.min_eq_left (by omega)
      rw [h2, if_neg (lt_irrefl _)]
      rw [if_neg (by
        rintro (hc | hc)
        · simp only [List.length_append, List.length_take] at hc
          omega
        · simp at hc)]
      simp only [hp]
      rw [List.drop_drop]
      obtain ⟨ih1, ih2, ih3⟩ := ih f (acc ++ r.take pbl) amount
        (by simp only [List.length_append, List.length_take]; omega)
        (by simp only [List.length_drop]; omega)
      refine ⟨ih1, ?_, ?_⟩
      · rw [ih2]
        rw [List.take_append_eq_append_take,
          List.take_of_length_le
            (show (r.take pbl).length ≤ amount - acc.length by
              simp only [List.length_take]; omega),
          show amount - acc.length - (r.take pbl).length =
              amount - (acc ++ r.take pbl).length from by
            simp only [List.length_append, List.length_take]; omega,
          List.append_assoc]
      · have heq : (r.take pbl ++ rest).drop (amount - acc.length) =
            rest.drop (amount - (acc ++ r.take pbl).length) := by
          rw [List.drop_append_eq_append_drop,
            List.drop_eq_nil_iff.mpr
              (by simp only [List.length_take]; omega),
            List.nil_append]
          congr 1
          simp only [List.length_append, List.length_take]
          omega
        rw [heq]
        exact ih3
    · -- the request is satisfied inside the current chunk
      have h1 : min pbl (amount - acc.length) = amount - acc.length :=
        Nat.min_eq_right hsp
      rw [h1]
      have h2 : min (amount - acc.length) r.length =
          amount - acc.length := by omega
      rw [h2, if_neg (lt_irrefl _), if_pos (Or.inl (by
        simp only [List.length_append, List.length_take]
        omega))]
      refine ⟨rfl, ?_, ?_⟩
      · show acc ++ r.take (amount - acc.length) =
          acc ++ (r.take pbl ++ rest).take (amount - acc.length)
        rw [List.take_append_of_le_length
            (by simp only [List.length_take]; omega),
          List.take_take, Nat.min_eq_left hsp]
      · show Chunks (r.drop (amount - acc.length))
          (pbl - (amount - acc.length)) false
          ((r.take pbl ++ rest).drop (amount - acc.length))
        exact chunks_drop (Chunks.stepF r pbl n cnt rest hle hp sub)
          _ hsp
  | stepP r pbl n cnt rest hle hp sub ih =>
    intro fuel acc amount hacc hfuel
    obtain ⟨f, rfl⟩ : ∃ f, fuel = f + 1 := ⟨fuel - 1, by omega⟩
    have hpf := parse_some_facts hp
    have hrlen : pbl < r.length := by
      have h2 := hpf.2
      simp only [List.length_drop] at h2
      omega
    simp only [fillLoopF]
    rcases Nat.lt_or_ge pbl (amount - acc.length) with hsp | hsp
    · have h1 : min pbl (amount - acc.length) = pbl :=
        Nat.min_eq_left (by omega)
      rw [h1]
      have h2 : min pbl r.length = pbl := Nat.min_eq_left (by omega)
      rw [h2, if_neg (lt_irrefl _)]
      rw [if_neg (by
        rintro (hc | hc)
        · simp only [List.length_append, List.length_take] at hc
          omega
        · simp at hc)]
      simp only [hp]
      rw [List.drop_drop]
      obtain ⟨ih1, ih2, ih3⟩ := ih f (acc ++ r.take pbl) amount
        (by simp only [List.length_append, List.length_take]; omega)
        (by simp only [List.length_drop]; omega)
      refine ⟨ih1, ?_, ?_⟩
      · rw [ih2]
        rw [List.take_append_eq_append_take,
          List.take_of_length_le
            (show (r.take pbl).length ≤ amount - acc.length by
              simp only [List.length_take]; omega),
          show amount - acc.length - (r.take pbl).length =
              amount - (acc ++ r.take pbl).length from by
            simp only [List.length_append, List.length_take]; omega,
          List.append_assoc]
      · have heq : (r.take pbl ++ rest).drop (amount - acc.length) =
            rest.drop (amount - (acc ++ r.take pbl).length) := by
          rw [List.drop_append_eq_append_drop,
            List.drop_eq_nil_iff.mpr
              (by simp only [List.length_take]; omega),
            List.nil_append]
          congr 1
          simp only [List.length_append, List.length_take]
          omega
        rw [heq]
        exact ih3
    · have h1 : min pbl (amount - acc.length) = amount - acc.length :=
        Nat.min_eq_right hsp
      rw [h1]
      have h2 : min (amount - acc.length) r.length =
          amount - acc.length := by omega
      rw [h2, if_neg (lt_irrefl _), if_pos (Or.inl (by
        simp only [List.length_append, List.length_take]
        omega))]
      refine ⟨rfl, ?_, ?_⟩
      · show acc ++ r.take (amount - acc.length) =
          acc ++ (r.take pbl ++ rest).take (amount - acc.length)
        rw [List.take_append_of_le_length
            (by simp only [List.length_take]; omega),
          List.take_take, Nat.min_eq_left hsp]
      · show Chunks (r.drop (amount - acc.length))
          (pbl - (amount - acc.length)) false
          ((r.take pbl ++ rest).drop (amount - acc.length))
        exact chunks_drop (Chunks.stepP r pbl n cnt rest hle hp sub)
          _ hsp

theorem parse_encPartHdr (k : Nat) (hk : k ≤ 30) (t : List Nat) :
    parseNewFormat (encPartHdr k ++ t) = some (BLen.part (2 ^ k), 1) := by
  simp only [encPartHdr, List.cons_append, List.nil_append,
    parseNewFormat]
  rw [if_neg (by omega), if_neg (by omega), if_neg (by omega)]
  rw [show (224 + k) % 32 = k from by omega]

theorem parse_encFullHdr (n : Nat) (hn : n < 4294967296)
    (t : List Nat) :
    parseNewFormat (encFullHdr n ++ t) = some (BLen.full n, 5) := by
  simp only [encFullHdr, List.cons_append, List.nil_append,
    parseNewFormat]
  rw [if_neg (by omega), if_neg (by omega), if_pos trivial]
  have : n / 16777216 % 256 * 16777216 + n / 65536 % 256 * 65536 +
      n / 256 % 256 * 256 + n % 256 = n := by omega
  rw [this]

theorem chunks_encode :
    ∀ (mids : List (Nat × List Nat)) (first final : List Nat),
      (∀ p ∈ mids, p.1 ≤ 30 ∧ p.2.length = 2 ^ p.1) →
      final.length < 4294967296 →
      Chunks (first ++ encodeChunks mids final) first.length false
        (first ++ chunkedBody mids final) := by
  intro mids
  induction mids with
  | nil =>
    intro first final hm hf
    simp only [encodeChunks, chunkedBody]
    have hgoal :
        first ++ final =
          (first ++ (encFullHdr final.length ++ final)).take
              first.length ++ final := by
      rw [List.take_append_of_le_length (le_refl _), List.take_length]
    rw [hgoal]
    refine Chunks.stepF _ _ final.length 5 final
      (by simp only [List.length_append]; omega) ?_ ?_
    · rw [List.drop_append_of_le_length (le_refl _),
        List.drop_length, List.nil_append]
      exact parse_encFullHdr final.length hf final
    · have hdrop :
          (first ++ (encFullHdr final.length ++ final)).drop
              (first.length + 5) = final := by
        rw [show first.length + 5 =
            (first ++ encFullHdr final.length).length from by
          simp [encFullHdr], ← List.append_assoc, List.drop_left]
      rw [hdrop]
      have hlast := Chunks.lastC final final.length (le_refl _)
      rw [List.take_length] at hlast
      exact hlast
  | cons p ms ih =>
    rcases p with ⟨k, b⟩
    intro first final hm hf
    have hk : k ≤ 30 := (hm (k, b) (by simp)).1
    have hb : b.length = 2 ^ k := (hm (k, b) (by simp)).2
    simp only [encodeChunks, chunkedBody]
    have hgoal :
        first ++ (b ++ chunkedBody ms final) =
          (first ++ (encPartHdr k ++ (b ++ encodeChunks ms final))).take
              first.length ++ (b ++ chunkedBody ms final) := by
      rw [List.take_append_of_le_length (le_refl _), List.take_length]
    rw [show encPartHdr k ++ b ++ encodeChunks ms final =
        encPartHdr k ++ (b ++ encodeChunks ms final) from by
      rw [List.append_assoc]]
    rw [hgoal]
    refine Chunks.stepP _ _ (2 ^ k) 1 (b ++ chunkedBody ms final)
      (by simp only [List.length_append]; omega) ?_ ?_
    · rw [List.drop_append_of_le_length (le_refl _), List.drop_length,
        List.nil_append]
      exact parse_encPartHdr k hk (b ++ encodeChunks ms final)
    · have hdrop :
          (first ++ (encPartHdr k ++ (b ++ encodeChunks ms final))).drop
              (first.length + 1) = b ++ encodeChunks ms final := by
        rw [show first.length + 1 =
            (first ++ encPartHdr k).length from by
          simp [encPartHdr], ← List.append_assoc, List.drop_left]
      rw [hdrop, ← hb]
      exact ih b final
        (fun q hq => hm q (by simp [hq]))
        hf

theorem do_fill_buffer_eq (s : PBF) (rem : List Nat) (amount : Nat)
    (hb : (match s.buffer with
           | some b => b.drop s.cursor
           | none => ([] : List Nat)) = rem) :
    do_fill_buffer s amount =
      ({ s with
          reader := (fillLoop s.hash_headers s.level s.reader s.pbl
            s.last rem amount).reader
          pbl := (fillLoop s.hash_headers s.level s.reader s.pbl
            s.last rem amount).pbl
          last := (fillLoop s.hash_headers s.level s.reader s.pbl
            s.last rem amount).last
          buffer := some (fillLoop s.hash_headers s.level s.reader s.pbl
            s.last rem amount).acc
          cursor := 0 },
        (fillLoop s.hash_headers s.level s.reader s.pbl s.last rem
          amount).err) := by
  unfold do_fill_buffer
  rw [hb]

theorem data_consume_ok (s : PBF) (rest : List Nat) (n : Nat)
    (h : stInv s rest) :
    ∃ s1 bs, PBF.data_consume s n = (s1, some bs) ∧
      bs.take n = rest.take n ∧ stInv s1 (rest.drop n) := by
  rcases h with ⟨hb, hc, hch⟩ | ⟨b, d, hb, hc, hch, hrem⟩
  · -- no local double-buffer
    have hple := chunks_pbl_le hch
    obtain ⟨r2, hr2, hr2last⟩ := chunks_rest_shape hch
    by_cases hcond : n ≤ s.pbl ∨ (s.last : Prop)
    · -- direct read from the underlying reader
      rcases le_or_lt n s.pbl with hn | hn
      · -- whole request inside the current chunk
        have hab : min (s.reader.take n).length s.pbl = n := by
          simp only [List.length_take]
          omega
        refine ⟨{ s with reader := s.reader.drop n, pbl := s.pbl - n },
          s.reader.take n, ?_, ?_, ?_⟩
        · unfold PBF.data_consume data_helper dataHelperInner
          simp only [hb]
          rw [if_pos hcond]
          simp only [hab]
          simp [List.take_take]
        · rw [hr2,
            List.take_append_of_le_length
              (by simp only [List.length_take]; omega),
            List.take_take, Nat.min_self, List.take_take,
            Nat.min_eq_left hn]
        · refine Or.inl ⟨hb, hc, ?_⟩
          have hcd := chunks_drop hch n hn
          exact hcd
      · -- final chunk, request overshoots: truncate to the chunk
        have hlast : s.last = true := by
          rcases hcond with h1 | h1
          · omega
          · exact h1
        have hr2nil : r2 = [] := hr2last hlast
        subst hr2nil
        rw [List.append_nil] at hr2
        have hab : min (s.reader.take n).length s.pbl = s.pbl := by
          simp only [List.length_take]
          omega
        refine ⟨{ s with reader := s.reader.drop n, pbl := s.pbl - s.pbl },
          (s.reader.take n).take s.pbl, ?_, ?_, ?_⟩
        · unfold PBF.data_consume data_helper dataHelperInner
          simp only [hb]
          rw [if_pos hcond]
          simp only [hab]
          simp [show min n s.pbl = s.pbl from by omega]
        · rw [List.take_take, Nat.min_eq_right (by omega : s.pbl ≤ n),
            List.take_take, Nat.min_eq_left (by omega : s.pbl ≤ n),
            hr2, List.take_take, Nat.min_eq_right (by omega : s.pbl ≤ n)]
        · refine Or.inl ⟨hb, hc, ?_⟩
          rw [hr2, hlast]
          rw [show (s.reader.take s.pbl).drop n = [] from
            List.drop_eq_nil_iff.mpr
              (by simp only [List.length_take]; omega)]
          have hlc := Chunks.lastC (s.reader.drop n) 0 (by omega)
          simpa using hlc
    · -- the request crosses a chunk boundary: refill
      have hnp : s.pbl < n := by
        rcases Nat.lt_or_ge s.pbl n with h1 | h1
        · exact h1
        · exact absurd (Or.inl h1) hcond
      obtain ⟨hfe, hfa, hfc⟩ := fillLoopF_ok s.hash_headers s.level hch
        (s.reader.length + 1) [] n (by simp) (by omega)
      have hacc : (fillLoop s.hash_headers s.level s.reader s.pbl
          s.last [] n).acc = rest.take n := by
        simpa using hfa
      refine ⟨{ s with
          reader := (fillLoop s.hash_headers s.level s.reader s.pbl
            s.last [] n).reader
          pbl := (fillLoop s.hash_headers s.level s.reader s.pbl
            s.last [] n).pbl
          last := (fillLoop s.hash_headers s.level s.reader s.pbl
            s.last [] n).last
          buffer := some (fillLoop s.hash_headers s.level s.reader s.pbl
            s.last [] n).acc
          cursor := 0 + min n (fillLoop s.hash_headers s.level s.reader
            s.pbl s.last [] n).acc.length },
          (fillLoop s.hash_headers s.level s.reader s.pbl s.last []
            n).acc, ?_, ?_, ?_⟩
      · unfold PBF.data_consume data_helper
        simp only [hb]
        rw [if_neg hcond]
        rw [do_fill_buffer_eq s [] n (by simp [hb])]
        rw [show (fillLoop s.hash_headers s.level s.reader s.pbl s.last
            [] n).err = false from hfe]
        unfold dataHelperTail
        simp only [Option.getD_some, List.drop_zero]
        simp
      · rw [hacc, List.take_take, Nat.min_self]
      · refine Or.inr ⟨(fillLoop s.hash_headers s.level s.reader s.pbl
            s.last [] n).acc, rest.drop n, rfl, ?_, hfc, ?_⟩
        · simp only [Nat.zero_add]
          exact Nat.min_le_right _ _
        · show (fillLoop s.hash_headers s.level s.reader s.pbl s.last
              [] n).acc.drop (0 + min n (fillLoop s.hash_headers s.level
              s.reader s.pbl s.last [] n).acc.length) ++ rest.drop n =
            rest.drop n
          rw [hacc]
          rw [show (0 + min n (rest.take n).length) =
              (rest.take n).length from by
            simp only [List.length_take]; omega]
          rw [List.drop_eq_nil_iff.mpr (le_refl _), List.nil_append]
  · -- a local double-buffer exists
    by_cases hfill : b.length - s.cursor < n
    · -- the buffered remnant is short: refill
      have hremlen : (b.drop s.cursor).length ≤ n := by
        simp only [List.length_drop]
        omega
      obtain ⟨hfe, hfa, hfc⟩ := fillLoopF_ok s.hash_headers s.level hch
        (s.reader.length + 1) (b.drop s.cursor) n hremlen (by omega)
      refine ⟨{ s with
          reader := (fillLoop s.hash_headers s.level s.reader s.pbl
            s.last (b.drop s.cursor) n).reader
          pbl := (fillLoop s.hash_headers s.level s.reader s.pbl
            s.last (b.drop s.cursor) n).pbl
          last := (fillLoop s.hash_headers s.level s.reader s.pbl
            s.last (b.drop s.cursor) n).last
          buffer := some (fillLoop s.hash_headers s.level s.reader s.pbl
            s.last (b.drop s.cursor) n).acc
          cursor := 0 + min n (fillLoop s.hash_headers s.level s.reader
            s.pbl s.last (b.drop s.cursor) n).acc.length },
          (fillLoop s.hash_headers s.level s.reader s.pbl s.last
            (b.drop s.cursor) n).acc, ?_, ?_, ?_⟩
      · unfold PBF.data_consume data_helper
        simp only [hb]
        rw [if_pos hfill]
        rw [do_fill_buffer_eq s (b.drop s.cursor) n (by simp [hb])]
        rw [show (fillLoop s.hash_headers s.level s.reader s.pbl s.last
            (b.drop s.cursor) n).err = false from hfe]
        unfold dataHelperTail
        simp only [Option.getD_some, List.drop_zero]
        simp
      · have hacc2 : (fillLoop s.hash_headers s.level s.reader s.pbl
            s.last (b.drop s.cursor) n).acc =
            b.drop s.cursor ++ d.take (n - (b.drop s.cursor).length) :=
          hfa
        have e1 : ((b.drop s.cursor) ++
            d.take (n - (b.drop s.cursor).length)).take n =
            (b.drop s.cursor) ++
              d.take (n - (b.drop s.cursor).length) := by
          apply List.take_of_length_le
          simp only [List.length_append, List.length_take,
            List.length_drop]
          omega
        have e2 : ((b.drop s.cursor) ++ d).take n =
            (b.drop s.cursor) ++
              d.take (n - (b.drop s.cursor).length) := by
          rw [List.take_append_eq_append_take,
            List.take_of_length_le hremlen]
        rw [hacc2, ← hrem, e1, e2]
      · refine Or.inr ⟨(fillLoop s.hash_headers s.level s.reader s.pbl
            s.last (b.drop s.cursor) n).acc,
          d.drop (n - (b.drop s.cursor).length), rfl, ?_, hfc, ?_⟩
        · simp only [Nat.zero_add]
          exact Nat.min_le_right _ _
        · have hacc2 : (fillLoop s.hash_headers s.level s.reader s.pbl
              s.last (b.drop s.cursor) n).acc =
              b.drop s.cursor ++ d.take (n - (b.drop s.cursor).length) :=
            hfa
          show (fillLoop s.hash_headers s.level s.reader s.pbl s.last
              (b.drop s.cursor) n).acc.drop
              (0 + min n (fillLoop s.hash_headers s.level s.reader s.pbl
                s.last (b.drop s.cursor) n).acc.length) ++
              d.drop (n - (b.drop s.cursor).length) = rest.drop n
          rw [hacc2]
          rw [show (0 + min n ((b.drop s.cursor) ++
              d.take (n - (b.drop s.cursor).length)).length) =
              ((b.drop s.cursor) ++
                d.take (n - (b.drop s.cursor).length)).length from by
            simp only [List.length_append, List.length_take,
              List.length_drop]
            omega]
          rw [List.drop_eq_nil_iff.mpr (le_refl _), List.nil_append,
            ← hrem]
          rw [List.drop_append_eq_append_drop,
            show (b.drop s.cursor).drop n = [] from
              List.drop_eq_nil_iff.mpr
                (by simp only [List.length_drop]; omega),
            List.nil_append]
    · -- serve directly from the buffered remnant
      have hrem2 : n ≤ (b.drop s.cursor).length := by
        simp only [List.length_drop]
        omega
      refine ⟨{ s with
          cursor := s.cursor + min n (b.drop s.cursor).length },
        b.drop s.cursor, ?_, ?_, ?_⟩
      · unfold PBF.data_consume data_helper
        simp only [hb]
        rw [if_neg hfill]
        unfold dataHelperTail
        simp only [hb, Option.getD_some]
        simp
      · rw [← hrem]
        rw [List.take_append_of_le_length hrem2]
      · refine Or.inr ⟨b, d, hb, ?_, hch, ?_⟩
        · show s.cursor + min n (b.drop s.cursor).length ≤ b.length
          simp only [List.length_drop]
          omega
        · show b.drop (s.cursor + min n (b.drop s.cursor).length) ++ d =
            rest.drop n
          rw [show s.cursor + min n (b.drop s.cursor).length =
              s.cursor + n from by
            simp only [List.length_drop]
            omega]
          rw [← hrem]
          rw [List.drop_append_of_le_length hrem2]
          rw [show b.drop (s.cursor + n) = (b.drop s.cursor).drop n from
            by rw [List.drop_drop]]

theorem readBytes_stInv : ∀ (rest : List Nat) (s : PBF),
    stInv s rest → readBytes s rest.length = rest := by
  intro rest
  induction rest with
  | nil => intro s _; rfl
  | cons x rest ih =>
    intro s h
    obtain ⟨s1, bs, hc, htake, hinv⟩ := data_consume_ok s (x :: rest) 1 h
    simp only [List.length_cons, readBytes]
    rw [hc]
    have h1 : bs.take 1 = [x] := by simpa using htake
    have h2 := ih s1 (by simpa using hinv)
    show bs.take 1 ++ readBytes s1 rest.length = x :: rest
    rw [h1, h2]
    rfl

/-- C1: chunk-boundary transparency.  For every valid chunked body
(initial chunk, power-of-two intermediate chunks, full-length final
chunk), reading the whole logical body one byte at a time through
repeated `data_consume 1` yields exactly the body bytes, and a single
`data_consume` of the total length delivers exactly the same sequence —
the chunk-length headers are invisible to the caller. -/
theorem chunk_transparency (first final : List Nat)
    (mids : List (Nat × List Nat))
    (hm : ∀ p ∈ mids, p.1 ≤ 30 ∧ p.2.length = 2 ^ p.1)
    (hf : final.length < 2 ^ 32) :
    readBytes (initPBF first mids final)
        (first ++ chunkedBody mids final).length =
      first ++ chunkedBody mids final ∧
    ∃ s1 bs,
      PBF.data_consume (initPBF first mids final)
          (first ++ chunkedBody mids final).length = (s1, some bs) ∧
      bs.take (first ++ chunkedBody mids final).length =
        first ++ chunkedBody mids final := by
  have hch : Chunks (first ++ encodeChunks mids final) first.length
      false (first ++ chunkedBody mids final) :=
    chunks_encode mids first final hm (by norm_num at hf; exact hf)
  have hinv : stInv (initPBF first mids final)
      (first ++ chunkedBody mids final) := Or.inl ⟨rfl, rfl, hch⟩
  constructor
  · exact readBytes_stInv _ _ hinv
  · obtain ⟨s1, bs, hc, ht, _⟩ := data_consume_ok _ _
      (first ++ chunkedBody mids final).length hinv
    exact ⟨s1, bs, hc, by rw [ht, List.take_length]⟩

/-- Witness for C1 on a three-chunk body: initial chunk [1, 2], one
partial chunk [3] of length 2^0 = 1, final chunk [4, 5]. -/
theorem chunk_transparency_witness :
    ((∀ p ∈ [((0 : Nat), ([3] : List Nat))],
        p.1 ≤ 30 ∧ p.2.length = 2 ^ p.1) ∧
      ([4, 5] : List Nat).length < 2 ^ 32) ∧
    (readBytes (initPBF [1, 2] [(0, [3])] [4, 5])
        (([1, 2] : List Nat) ++ chunkedBody [(0, [3])] [4, 5]).length =
      ([1, 2] : List Nat) ++ chunkedBody [(0, [3])] [4, 5] ∧
    ∃ s1 bs,
      PBF.data_consume (initPBF [1, 2] [(0, [3])] [4, 5])
          (([1, 2] : List Nat) ++
            chunkedBody [(0, [3])] [4, 5]).length = (s1, some bs) ∧
      bs.take (([1, 2] : List Nat) ++
          chunkedBody [(0, [3])] [4, 5]).length =
        ([1, 2] : List Nat) ++ chunkedBody [(0, [3])] [4, 5]) :=
  ⟨⟨by decide, by decide⟩,
   chunk_transparency [1, 2] [4, 5] [(0, [3])] (by decide) (by decide)⟩
